import Mathlib

/-
Verification of the Map_ADT red-black left-leaning tree (map_adt.h).

The tree of `Map_ADT<K,D,P>` is embedded as an inductive `Tree K D`: a node
carries its Entry (key, data) and the two bits of the flags byte (`red` for
bit RED = 0x02, `dead` for bit DEAD = 0x01); `nil` stands for a null child
pointer.  The comparator `P = LessThan<K>` is the strict order of a
`LinearOrder` on `K`; key equality is the usual two-sided negative test of
the source.  Each public and private method of the class is translated into
a function on `Tree`; the in-order live-entry iterator, whose implementation
lives in mapiter_adt.h (not among the sources), is modelled from the spec.
-/

set_option linter.unusedSectionVars false
set_option linter.unusedVariables false

namespace fsu

/-- A node of the left-leaning red-black tree of map_adt.h: the Entry
(`key`, `data`), the two child links, and the flags byte split into its two
bits (`red` for the RED bit, `dead` for the DEAD bit).  `nil` is the null
pointer.  New nodes are constructed with DEFAULT flags, that is red and
alive. -/
inductive Tree (K D : Type) where
  | nil : Tree K D
  | node (lchild : Tree K D) (key : K) (data : D) (red : Bool) (dead : Bool)
      (rchild : Tree K D) : Tree K D
deriving DecidableEq, Repr

namespace Tree

variable {K D : Type}

/-- Node::IsRed() lifted to a possibly-null pointer: a null node counts as
black (compare Node::RightChildIsRed, which returns 0 for a null child). -/
def IsRedT : Tree K D → Bool
  | nil => false
  | node _ _ _ red _ _ => red

/-- Node::RightChildIsRed: red test of the right child, 0 when there is no
right child. -/
def RightChildIsRed : Tree K D → Bool
  | nil => false
  | node _ _ _ _ _ r => IsRedT r

/-- Node::LeftChildIsRed: red test of the left child, 0 when there is no
left child. -/
def LeftChildIsRed : Tree K D → Bool
  | nil => false
  | node l _ _ _ _ _ => IsRedT l

/-- The test `nptr->lchild_->LeftChildIsRed()` of the repair code; it is
only evaluated when the left child exists. -/
def LeftLeftIsRed : Tree K D → Bool
  | nil => false
  | node l _ _ _ _ _ => LeftChildIsRed l

/-- Map_ADT::RotateLeft.  A null node or a node without a right child is
returned unchanged; a black right child is the diagnostic case, also
returned unchanged (the message is tracked by `RotateLeftD` below); with a
red right child p, p becomes the subtree root, p's left child becomes n's
right child, n becomes p's left child, p takes n's previous color and n is
forced red.  Dead bits travel with their nodes. -/
def RotateLeft : Tree K D → Tree K D
  | nil => nil
  | node l k d c dd nil => node l k d c dd nil
  | node l k d c dd (node rl rk rd rc rdd rr) =>
      if rc then node (node l k d true dd rl) rk rd c rdd rr
      else node l k d c dd (node rl rk rd rc rdd rr)

/-- Map_ADT::RotateRight, the mirror image of RotateLeft. -/
def RotateRight : Tree K D → Tree K D
  | nil => nil
  | node nil k d c dd r => node nil k d c dd r
  | node (node ll lk ld lc ldd lr) k d c dd r =>
      if lc then node ll lk ld c ldd (node lr k d true dd r)
      else node (node ll lk ld lc ldd lr) k d c dd r

/-- The diagnostic string RotateLeft writes to std::cerr when called with a
black right child. -/
def RotateLeftMsg : String := " ** RotateLeft called with black right child\n"

/-- The diagnostic string RotateRight writes to std::cerr when called with a
black left child. -/
def RotateRightMsg : String := " ** RotateRight called with black left child\n"

/-- Map_ADT::RotateLeft together with the diagnostics it writes to std::cerr:
a null node or a node with a null right child is returned unchanged with no
output (the first guard of the source returns before the color test); a node
whose right child exists but is black produces the diagnostic line and is
returned unchanged; otherwise the rotation happens silently. -/
def RotateLeftD : Tree K D → Tree K D × List String
  | nil => (nil, [])
  | node l k d c dd nil => (node l k d c dd nil, [])
  | node l k d c dd (node rl rk rd rc rdd rr) =>
      if rc then (node (node l k d true dd rl) rk rd c rdd rr, [])
      else (node l k d c dd (node rl rk rd rc rdd rr), [RotateLeftMsg])

/-- Map_ADT::RotateRight together with its std::cerr diagnostics. -/
def RotateRightD : Tree K D → Tree K D × List String
  | nil => (nil, [])
  | node nil k d c dd r => (node nil k d c dd r, [])
  | node (node ll lk ld lc ldd lr) k d c dd r =>
      if lc then (node ll lk ld c ldd (node lr k d true dd r), [])
      else (node (node ll lk ld lc ldd lr) k d c dd r, [RotateRightMsg])

/-- Node::SetBlack applied to the node a pointer designates (a null pointer
is left alone); used for `root_->SetBlack()` and for the child blackening of
the color flip. -/
def SetBlackRoot : Tree K D → Tree K D
  | nil => nil
  | node l k d _ dd r => node l k d false dd r

/-- The color-flip step of the repair code: both children are set black and
the current node red.  It is only reached when both children are red, hence
non-null. -/
def ColorFlip : Tree K D → Tree K D
  | nil => nil
  | node l k d _ dd r => node (SetBlackRoot l) k d true dd (SetBlackRoot r)

/-- The bottom-up LLRB repair tail shared verbatim by RGet and RInsert:
rotate left when the right child is red and the left is not, then rotate
right when the left child and its left child are both red, then color-flip
when both children are red — in this order, each test on the tree the
previous step produced. -/
def repair (t : Tree K D) : Tree K D :=
  let t1 := if RightChildIsRed t && !LeftChildIsRed t then RotateLeft t else t
  let t2 := if LeftChildIsRed t1 && LeftLeftIsRed t1 then RotateRight t1 else t1
  if LeftChildIsRed t2 && RightChildIsRed t2 then ColorFlip t2 else t2

variable [LinearOrder K]

/-- Map_ADT::RInsert: recursive left-leaning insert.  An empty subtree
becomes a fresh red, alive node carrying the data; on a strict-less descent
the child link is rewritten; on equality the data is overwritten and the
node set alive; after the recursion the repair tail runs (the fresh-leaf
case returns before it). -/
def RInsert (t : Tree K D) (k : K) (v : D) : Tree K D :=
  match t with
  | nil => node nil k v true false nil
  | node l key d c dd r =>
    if k < key then repair (node (RInsert l k v) key d c dd r)
    else if key < k then repair (node l key d c dd (RInsert r k v))
    else repair (node l key v c false r)

/-- Map_ADT::RGet: recursive left-leaning get.  Identical to RInsert except
at the two terminal points: an empty subtree becomes a fresh red, alive node
with a default-constructed value `D()`, and on equality the node is only set
alive — the data is not touched.  The location out-parameter is the node
carrying key k in the result (see `WriteKey`). -/
def RGet [Inhabited D] (t : Tree K D) (k : K) : Tree K D :=
  match t with
  | nil => node nil k default true false nil
  | node l key d c dd r =>
    if k < key then repair (node (RGet l k) key d c dd r)
    else if key < k then repair (node l key d c dd (RGet r k))
    else repair (node l key d c false r)

/-- Map_ADT::Get as a state transformer: `root_ = RGet(root_, k, location);
root_->SetBlack()`.  The value reference Get returns is the data slot of the
location node, the node of the result that carries key k. -/
def Get [Inhabited D] (t : Tree K D) (k : K) : Tree K D :=
  SetBlackRoot (RGet t k)

/-- The assignment through the reference Get returns: the location pointer
designates the node carrying key k in the tree Get produced (RGet either
found that node or created it), so writing through it sets the data slot of
the node with key k; all other nodes are untouched.  On the trees of the
claims the key k occurs at most once, so at most one slot is written. -/
def WriteKey (k : K) (v : D) : Tree K D → Tree K D
  | nil => nil
  | node l key d c dd r =>
      node (WriteKey k v l) key (if key = k then v else d) c dd (WriteKey k v r)

/-- Map_ADT::Put: `Get(k) = d`, that is Get followed by assigning through the
returned reference. -/
def Put [Inhabited D] (t : Tree K D) (k : K) (v : D) : Tree K D :=
  WriteKey k v (Get t k)

/-- Map_ADT::Insert is an alias for Put. -/
def Insert [Inhabited D] (t : Tree K D) (k : K) (v : D) : Tree K D :=
  Put t k v

/-- Map_ADT::Erase: plain BST descent; on a match the node's DEAD bit is set
(`SetDead`), nothing is freed and no rebalancing happens; when the key is
absent the loop falls off a null link and nothing changes. -/
def Erase (t : Tree K D) (k : K) : Tree K D :=
  match t with
  | nil => nil
  | node l key d c dd r =>
    if k < key then node (Erase l k) key d c dd r
    else if key < k then node l key d c dd (Erase r k)
    else node l key d c true r

/-- Map_ADT::Clear: releases every node and nulls the root. -/
def Clear (_ : Tree K D) : Tree K D := nil

/-- Map_ADT::RSize: counts alive nodes. -/
def RSize : Tree K D → Nat
  | nil => 0
  | node l _ _ _ dd r => (if dd then 0 else 1) + RSize l + RSize r

/-- Map_ADT::RNumNodes: counts all nodes, alive and dead. -/
def RNumNodes : Tree K D → Nat
  | nil => 0
  | node l _ _ _ _ r => 1 + RNumNodes l + RNumNodes r

/-- Map_ADT::RHeight: −1 for an empty tree, otherwise one more than the
larger child height. -/
def RHeight : Tree K D → Int
  | nil => -1
  | node l _ _ _ _ r =>
    let lh := RHeight l
    let rh := RHeight r
    if lh < rh then 1 + rh else 1 + lh

/-- Map_ADT::Empty: the root is the null pointer. -/
def EmptyB : Tree K D → Bool
  | nil => true
  | node _ _ _ _ _ _ => false

/-- Map_ADT::Includes: iterative BST descent from the root; when the key is
found at an alive node the iterator holding that node is returned — rendered
here as the node's data; when the found node is dead, or the descent falls
off a null link, End() is returned — rendered as `none`. -/
def Includes (t : Tree K D) (k : K) : Option D :=
  match t with
  | nil => none
  | node l key d _ dead r =>
    if k < key then Includes l k
    else if key < k then Includes r k
    else if dead then none else some d

/-- Map_ADT::Retrieve: Includes(k), then if the iterator is End() return
false leaving the out-slot untouched, else overwrite the out-slot with the
found data and return true.  The pair is (returned Bool, out-slot after the
call). -/
def Retrieve (t : Tree K D) (k : K) (d : D) : Bool × D :=
  match Includes t k with
  | none => (false, d)
  | some v => (true, v)

/-- The full in-order sequence of the tree: every node's (key, data, dead
bit), tombstones included; this is the structural in-order walk. -/
def inorderAll : Tree K D → List (K × D × Bool)
  | nil => []
  | node l k d _ dd r => inorderAll l ++ (k, d, dd) :: inorderAll r

/-- Modelled from the spec: the in-order live-entry iterator
(ConstInorderMapIterator of mapiter_adt.h, which is not among the sources).
Per spec 4.D it walks the tree in order and skips tombstones transparently,
so the sequence of entries it yields from Begin() to End() is the in-order
list of the (key, value) pairs of the alive nodes. -/
def inorderLive : Tree K D → List (K × D)
  | nil => []
  | node l k d _ dd r => inorderLive l ++ (if dd then [] else [(k, d)]) ++ inorderLive r

/-- The loop of operator==, on the entry sequences the two live iterators
produce: step both, fail on the first key or data mismatch, succeed only
when both reach End() together. -/
def EntriesEq [DecidableEq D] : List (K × D) → List (K × D) → Bool
  | [], [] => true
  | (k1, d1) :: xs, (k2, d2) :: ys =>
      if k1 = k2 then (if d1 = d2 then EntriesEq xs ys else false) else false
  | _, _ => false

/-- operator== on maps: in-order walk of both trees through their live-entry
iterators, comparing keys and data. -/
def MapEq [DecidableEq D] (t1 t2 : Tree K D) : Bool :=
  EntriesEq (inorderLive t1) (inorderLive t2)

/-- Map_ADT::Rehash: build a new root by RInsert-ing every (key, data) pair
the live in-order iterator yields, blackening the new root after each
insert; then Clear the old tree and install the new root. -/
def Rehash (t : Tree K D) : Tree K D :=
  (inorderLive t).foldl (fun acc e => SetBlackRoot (RInsert acc e.1 e.2)) nil

/-- Map_ADT::RClone: deep copy; each fresh node gets the source node's key,
data and raw flags byte, then the children are cloned. -/
def RClone : Tree K D → Tree K D
  | nil => nil
  | node l k d c dd r => node (RClone l) k d c dd (RClone r)

/-- Map_ADT::operator=: `if (this != &that) { Clear(); root_ = RClone(that.root_); }
return *this;`.  The Bool argument says whether the two operands are the
same object (`this == &that`); the result is the left operand's new tree
paired with whether the Clear-and-RClone body ran (only that body frees or
allocates nodes). -/
def AssignOp (selfAlias : Bool) (lhs rhs : Tree K D) : Tree K D × Bool :=
  if selfAlias then (lhs, false) else (RClone rhs, true)

/-- The map states reachable from a default-constructed map by the public
mutating operations.  Insert and operator[] assignment are aliases of Put;
the copy constructor and operator= both install an RClone of a reachable
tree (for operator= on distinct objects the old tree is cleared first, which
does not affect the new state). -/
inductive Reachable [Inhabited D] : Tree K D → Prop
  | empty : Reachable nil
  | get (t : Tree K D) (k : K) : Reachable t → Reachable (Get t k)
  | put (t : Tree K D) (k : K) (v : D) : Reachable t → Reachable (Put t k v)
  | erase (t : Tree K D) (k : K) : Reachable t → Reachable (Erase t k)
  | clear (t : Tree K D) : Reachable t → Reachable (Clear t)
  | rehash (t : Tree K D) : Reachable t → Reachable (Rehash t)
  | copy (t : Tree K D) : Reachable t → Reachable (RClone t)

/-- Strict left-leaning property: no node anywhere has a red right child. -/
def noRR : Tree K D → Bool
  | nil => true
  | node l _ _ _ _ r => !IsRedT r && noRR l && noRR r

/-- No red node has a red child. -/
def noRedRed : Tree K D → Bool
  | nil => true
  | node l _ _ c _ r => !(c && IsRedT l) && !(c && IsRedT r) && noRedRed l && noRedRed r

/-- Black height: the number of black nodes on the path from the root to the
leftmost null link. -/
def bh : Tree K D → Nat
  | nil => 0
  | node l _ _ c _ _ => bh l + (if c then 0 else 1)

/-- Black balance: every node's two children agree on black height, so every
root-to-null path carries the same number of black nodes. -/
def balancedB : Tree K D → Bool
  | nil => true
  | node l _ _ _ _ r => (bh l == bh r) && balancedB l && balancedB r

/-- The steady-state color invariant of the structure: strict left leaning,
no red-red edge, black balance (root color free). -/
def okA (t : Tree K D) : Bool := noRR t && noRedRed t && balancedB t

/-- The single transient violation insertion can hand up: a red root whose
left child is red, both children internally valid, right child black,
children balanced against each other. -/
def okB : Tree K D → Bool
  | nil => false
  | node l _ _ c _ r =>
      c && IsRedT l && !IsRedT r && okA l && okA r && (bh l == bh r)

/-- Every key of the tree satisfies p. -/
def allB (p : K → Bool) : Tree K D → Bool
  | nil => true
  | node l k _ _ _ r => p k && allB p l && allB p r

/-- BST order under the comparator: left keys strictly below, right keys
strictly above, recursively. -/
def isBST : Tree K D → Bool
  | nil => true
  | node l k _ _ _ r =>
      allB (fun x => decide (x < k)) l && allB (fun x => decide (k < x)) r &&
        isBST l && isBST r

/-- Spec invariant 2 as stated: no node has a red right child while its left
child is black. -/
def leftLeaning : Tree K D → Bool
  | nil => true
  | node l _ _ _ _ r => !(IsRedT r && !IsRedT l) && leftLeaning l && leftLeaning r

/-- Spec invariant 3 as stated: a red left child may not itself have a red
left child. -/
def noTwoRedLeft : Tree K D → Bool
  | nil => true
  | node l _ _ _ _ r => !(IsRedT l && LeftChildIsRed l) && noTwoRedLeft l && noTwoRedLeft r

/-- Height measured in nodes on the longest root-to-null path (RHeight is
this minus one). -/
def heightN : Tree K D → Nat
  | nil => 0
  | node l _ _ _ _ r => 1 + max (heightN l) (heightN r)

/-- Inserting keys 1..n in ascending order into a fresh map, each with
value 0. -/
def buildAsc (n : Nat) : Tree Nat Nat :=
  (List.range n).foldl (fun a i => Put a (i + 1) 0) nil

/-- Inserting keys n..1 in descending order into a fresh map, each with
value 0. -/
def buildDesc (n : Nat) : Tree Nat Nat :=
  (List.range n).foldl (fun a i => Put a (n - i) 0) nil

end Tree

end fsu

namespace fsu

namespace Tree

variable {K D : Type}

@[simp] lemma IsRedT_SetBlackRoot (t : Tree K D) : IsRedT (SetBlackRoot t) = false := by
  cases t <;> simp [SetBlackRoot, IsRedT]

lemma bh_SetBlackRoot (t : Tree K D) :
    bh (SetBlackRoot t) = bh t + (if IsRedT t then 1 else 0) := by
  cases t with
  | nil => simp [SetBlackRoot, bh, IsRedT]
  | node l k d c dd r => cases c <;> simp [SetBlackRoot, bh, IsRedT]

@[simp] lemma noRR_SetBlackRoot (t : Tree K D) : noRR (SetBlackRoot t) = noRR t := by
  cases t <;> simp [SetBlackRoot, noRR]

lemma noRedRed_SetBlackRoot {t : Tree K D} (h : noRedRed t = true) :
    noRedRed (SetBlackRoot t) = true := by
  cases t <;> simp_all [SetBlackRoot, noRedRed, Bool.and_eq_true]

@[simp] lemma balancedB_SetBlackRoot (t : Tree K D) :
    balancedB (SetBlackRoot t) = balancedB t := by
  cases t <;> simp [SetBlackRoot, balancedB]

lemma okA_node_iff {l r : Tree K D} {k : K} {d : D} {c dd : Bool} :
    okA (node l k d c dd r) = true ↔
      IsRedT r = false ∧ (c = true → IsRedT l = false) ∧ bh l = bh r ∧
        okA l = true ∧ okA r = true := by
  cases c <;>
    simp [okA, noRR, noRedRed, balancedB, Bool.and_eq_true, Bool.not_eq_true'] <;>
    tauto

lemma okB_node_iff {l r : Tree K D} {k : K} {d : D} {c dd : Bool} :
    okB (node l k d c dd r) = true ↔
      c = true ∧ IsRedT l = true ∧ IsRedT r = false ∧ okA l = true ∧
        okA r = true ∧ bh l = bh r := by
  simp [okB, Bool.and_eq_true, Bool.not_eq_true']
  tauto

@[simp] lemma okA_nil : okA (nil : Tree K D) = true := rfl

lemma okA_SetBlackRoot {t : Tree K D} (h : okA t = true) :
    okA (SetBlackRoot t) = true := by
  cases t with
  | nil => rfl
  | node l k d c dd r =>
    rw [okA_node_iff] at h
    simp [SetBlackRoot, okA_node_iff]
    tauto

lemma okB_SetBlackRoot {t : Tree K D} (h : okB t = true) :
    okA (SetBlackRoot t) = true := by
  cases t with
  | nil => simp [okB] at h
  | node l k d c dd r =>
    rw [okB_node_iff] at h
    simp [SetBlackRoot, okA_node_iff]
    tauto

@[simp] lemma IsRedT_nil : IsRedT (nil : Tree K D) = false := rfl

@[simp] lemma IsRedT_node {l r : Tree K D} {k : K} {d : D} {c dd : Bool} :
    IsRedT (node l k d c dd r) = c := rfl

lemma bh_nil : bh (nil : Tree K D) = 0 := rfl

lemma bh_node {l r : Tree K D} {k : K} {d : D} {c dd : Bool} :
    bh (node l k d c dd r) = bh l + (if c then 0 else 1) := rfl

lemma repair_ok {a b : Tree K D} {k : K} {d : D} {c dd : Bool}
    (hbh : bh a = bh b) (hb : okA b = true)
    (hX : ¬(c = true ∧ IsRedT a = true ∧ IsRedT b = true))
    (ha : okA a = true ∨ (c = false ∧ okB a = true ∧ IsRedT b = false)) :
    bh (repair (node a k d c dd b)) = bh b + (if c then 0 else 1) ∧
      (okA (repair (node a k d c dd b)) = true ∨
        (c = true ∧ okB (repair (node a k d c dd b)) = true)) := by
  by_cases hrb : IsRedT b = true
  · -- the right child is red: the subtree was extended on the right
    cases b with
    | nil => simp at hrb
    | node bl bk bd cb bdd br =>
      simp at hrb
      subst hrb
      rw [okA_node_iff] at hb
      obtain ⟨hbr, hbl, hbhb, hokbl, hokbr⟩ := hb
      have hbl' : IsRedT bl = false := hbl rfl
      rcases ha with ha | ⟨_, _, hco⟩
      · by_cases hra : IsRedT a = true
        · -- both children red: the color flip fires
          have hc : c = false := by
            cases c
            · rfl
            · exact absurd ⟨rfl, hra, rfl⟩ hX
          subst hc
          cases a with
          | nil => simp at hra
          | node al ak ad ca add ar =>
            simp at hra
            subst hra
            rw [okA_node_iff] at ha
            obtain ⟨har, hal, hbha, hokal, hokar⟩ := ha
            have hal' : IsRedT al = false := hal rfl
            have hrep :
                repair (node (node al ak ad true add ar) k d false dd
                    (node bl bk bd true bdd br)) =
                  node (node al ak ad false add ar) k d true dd
                    (node bl bk bd false bdd br) := by
              simp [repair, RightChildIsRed, LeftChildIsRed, LeftLeftIsRed,
                hal', ColorFlip, SetBlackRoot]
            rw [hrep]
            constructor
            · simp [bh_node] at hbh ⊢
              omega
            · left
              rw [okA_node_iff]
              refine ⟨by simp, by simp, ?_, ?_, ?_⟩
              · simp [bh_node] at hbh ⊢
                omega
              · rw [okA_node_iff]
                exact ⟨har, by simp, hbha, hokal, hokar⟩
              · rw [okA_node_iff]
                exact ⟨hbr, by simp, hbhb, hokbl, hokbr⟩
        · -- red right, non-red left: the left rotation fires
          have hra' : IsRedT a = false := by simpa using hra
          have hrep :
              repair (node a k d c dd (node bl bk bd true bdd br)) =
                node (node a k d true dd bl) bk bd c bdd br := by
            simp [repair, RightChildIsRed, LeftChildIsRed, LeftLeftIsRed,
              hra', RotateLeft, hbr]
          rw [hrep]
          have hbhbl : bh a = bh bl := by
            simp [bh_node] at hbh
            omega
          have hinner : okA (node a k d true dd bl) = true := by
            rw [okA_node_iff]
            exact ⟨hbl', fun _ => hra', hbhbl, ha, hokbl⟩
          constructor
          · simp [bh_node] at hbh ⊢
            omega
          · cases c with
            | false =>
              left
              rw [okA_node_iff]
              refine ⟨hbr, by simp, ?_, hinner, hokbr⟩
              simp [bh_node] at hbh ⊢
              omega
            | true =>
              right
              refine ⟨rfl, ?_⟩
              rw [okB_node_iff]
              refine ⟨rfl, by simp, hbr, hinner, hokbr, ?_⟩
              simp [bh_node] at hbh ⊢
              omega
      · simp at hco
  · -- the right child is not red: either nothing fires, or the transient
    -- red-red left pair is resolved by right rotation plus color flip
    have hrb' : IsRedT b = false := by simpa using hrb
    rcases ha with ha | ⟨hc, haB, _⟩
    · by_cases hra : IsRedT a = true
      · cases a with
        | nil => simp at hra
        | node al ak ad ca add ar =>
          simp at hra
          subst hra
          rw [okA_node_iff] at ha
          obtain ⟨har, hal, hbha, hokal, hokar⟩ := ha
          have hal' : IsRedT al = false := hal rfl
          have hrep :
              repair (node (node al ak ad true add ar) k d c dd b) =
                node (node al ak ad true add ar) k d c dd b := by
            simp [repair, RightChildIsRed, LeftChildIsRed, LeftLeftIsRed,
              hrb', hal']
          rw [hrep]
          refine ⟨by simp [bh_node, hbh], ?_⟩
          cases c with
          | false =>
            left
            rw [okA_node_iff]
            refine ⟨hrb', by simp, hbh, ?_, hb⟩
            rw [okA_node_iff]
            exact ⟨har, hal, hbha, hokal, hokar⟩
          | true =>
            right
            refine ⟨rfl, ?_⟩
            rw [okB_node_iff]
            refine ⟨rfl, by simp, hrb', ?_, hb, hbh⟩
            rw [okA_node_iff]
            exact ⟨har, hal, hbha, hokal, hokar⟩
      · have hra' : IsRedT a = false := by simpa using hra
        have hrep : repair (node a k d c dd b) = node a k d c dd b := by
          simp [repair, RightChildIsRed, LeftChildIsRed, LeftLeftIsRed, hrb', hra']
        rw [hrep]
        refine ⟨by simp [bh_node, hbh], ?_⟩
        left
        rw [okA_node_iff]
        exact ⟨hrb', fun _ => hra', hbh, ha, hb⟩
    · -- transient state: red left child with red left grandchild
      subst hc
      cases a with
      | nil => simp [okB] at haB
      | node al ak ad ca add ar =>
        rw [okB_node_iff] at haB
        obtain ⟨hca, hal, har, hokal, hokar, hbha⟩ := haB
        subst hca
        have hrep :
            repair (node (node al ak ad true add ar) k d false dd b) =
              node (SetBlackRoot al) ak ad true add (node ar k d false dd b) := by
          cases al with
          | nil => simp at hal
          | node all alk ald alc aldd alr =>
            simp at hal
            subst hal
            simp [repair, RightChildIsRed, LeftChildIsRed, LeftLeftIsRed,
              hrb', RotateRight, ColorFlip, SetBlackRoot]
        rw [hrep]
        have hbhal : bh (SetBlackRoot al) = bh al + 1 := by
          rw [bh_SetBlackRoot, hal]
          simp
        have habh : bh al = bh b := by
          simp [bh_node] at hbh
          omega
        constructor
        · simp [bh_node, hbhal]
          omega
        · left
          rw [okA_node_iff]
          refine ⟨by simp, by simp, ?_, okA_SetBlackRoot hokal, ?_⟩
          · simp [bh_node, hbhal]
            omega
          · rw [okA_node_iff]
            refine ⟨hrb', by simp, ?_, hokar, hb⟩
            omega

lemma okA_leaf {k : K} {v : D} : okA (node nil k v true false nil) = true := by
  rw [okA_node_iff]
  exact ⟨rfl, fun _ => rfl, rfl, rfl, rfl⟩

lemma RInsert_ok [LinearOrder K] {t : Tree K D} (h : okA t = true) (k : K) (v : D) :
    bh (RInsert t k v) = bh t ∧
      (okA (RInsert t k v) = true ∨
        (IsRedT t = true ∧ okB (RInsert t k v) = true)) := by
  induction t with
  | nil => exact ⟨rfl, Or.inl okA_leaf⟩
  | node l key d c dd r ihl ihr =>
    rw [okA_node_iff] at h
    obtain ⟨hrr, hrl, hbhlr, hokl, hokr⟩ := h
    by_cases h1 : k < key
    · obtain ⟨ibh, iok⟩ := ihl hokl
      have hbh' : bh (RInsert l k v) = bh r := by rw [ibh, hbhlr]
      have hX : ¬(c = true ∧ IsRedT (RInsert l k v) = true ∧ IsRedT r = true) := by
        rintro ⟨_, _, hr3⟩
        rw [hrr] at hr3
        exact Bool.false_ne_true hr3
      have ha : okA (RInsert l k v) = true ∨
          (c = false ∧ okB (RInsert l k v) = true ∧ IsRedT r = false) := by
        rcases iok with hA | ⟨hlred, hokb⟩
        · exact Or.inl hA
        · refine Or.inr ⟨?_, hokb, hrr⟩
          cases c with
          | false => rfl
          | true => rw [hrl rfl] at hlred; exact absurd hlred (by simp)
      have hmain := @repair_ok K D (RInsert l k v) r key d c dd hbh' hokr hX ha
      rw [RInsert, if_pos h1]
      constructor
      · rw [hmain.1, bh_node, hbhlr]
      · rcases hmain.2 with hA | ⟨hc, hB⟩
        · exact Or.inl hA
        · exact Or.inr ⟨by simp [hc], hB⟩
    · by_cases h2 : key < k
      · obtain ⟨ibh, iok⟩ := ihr hokr
        have iokA : okA (RInsert r k v) = true := by
          rcases iok with hA | ⟨hrred, _⟩
          · exact hA
          · rw [hrr] at hrred
            exact absurd hrred (by simp)
        have hbh' : bh l = bh (RInsert r k v) := by rw [ibh, hbhlr]
        have hX : ¬(c = true ∧ IsRedT l = true ∧ IsRedT (RInsert r k v) = true) := by
          rintro ⟨hc, hl3, _⟩
          rw [hrl hc] at hl3
          exact Bool.false_ne_true hl3
        have hmain := @repair_ok K D l (RInsert r k v) key d c dd hbh' iokA hX (Or.inl hokl)
        rw [RInsert, if_neg h1, if_pos h2]
        constructor
        · rw [hmain.1, bh_node, ← hbh']
        · rcases hmain.2 with hA | ⟨hc, hB⟩
          · exact Or.inl hA
          · exact Or.inr ⟨by simp [hc], hB⟩
      · have hX : ¬(c = true ∧ IsRedT l = true ∧ IsRedT r = true) := by
          rintro ⟨hc, hl3, _⟩
          rw [hrl hc] at hl3
          exact Bool.false_ne_true hl3
        have hmain := @repair_ok K D l r key v c false hbhlr hokr hX (Or.inl hokl)
        rw [RInsert, if_neg h1, if_neg h2]
        constructor
        · rw [hmain.1, bh_node, hbhlr]
        · rcases hmain.2 with hA | ⟨hc, hB⟩
          · exact Or.inl hA
          · exact Or.inr ⟨by simp [hc], hB⟩

lemma RInsert_black_ok [LinearOrder K] {t : Tree K D} (h : okA t = true) (k : K) (v : D) :
    okA (SetBlackRoot (RInsert t k v)) = true ∧
      IsRedT (SetBlackRoot (RInsert t k v)) = false := by
  refine ⟨?_, IsRedT_SetBlackRoot _⟩
  rcases (RInsert_ok h k v).2 with hA | ⟨_, hB⟩
  · exact okA_SetBlackRoot hA
  · exact okB_SetBlackRoot hB

lemma inorderAll_SetBlackRoot (t : Tree K D) :
    inorderAll (SetBlackRoot t) = inorderAll t := by
  cases t <;> simp [SetBlackRoot, inorderAll]

lemma inorderAll_RotateLeft (t : Tree K D) :
    inorderAll (RotateLeft t) = inorderAll t := by
  cases t with
  | nil => rfl
  | node l k d c dd r =>
    cases r with
    | nil => rfl
    | node rl rk rd rc rdd rr => cases rc <;> simp [RotateLeft, inorderAll]

lemma inorderAll_RotateRight (t : Tree K D) :
    inorderAll (RotateRight t) = inorderAll t := by
  cases t with
  | nil => rfl
  | node l k d c dd r =>
    cases l with
    | nil => rfl
    | node ll lk ld lc ldd lr => cases lc <;> simp [RotateRight, inorderAll]

lemma inorderAll_ColorFlip (t : Tree K D) :
    inorderAll (ColorFlip t) = inorderAll t := by
  cases t <;> simp [ColorFlip, inorderAll, inorderAll_SetBlackRoot]

lemma inorderAll_repair (t : Tree K D) : inorderAll (repair t) = inorderAll t := by
  unfold repair
  simp only [apply_ite inorderAll, inorderAll_RotateLeft, inorderAll_RotateRight,
    inorderAll_ColorFlip, ite_self]

section WriteKeyLemmas

variable [LinearOrder K]

lemma IsRedT_WriteKey (k : K) (v : D) (t : Tree K D) :
    IsRedT (WriteKey k v t) = IsRedT t := by
  cases t <;> simp [WriteKey, IsRedT]

lemma RightChildIsRed_WriteKey (k : K) (v : D) (t : Tree K D) :
    RightChildIsRed (WriteKey k v t) = RightChildIsRed t := by
  cases t <;> simp [WriteKey, RightChildIsRed, IsRedT_WriteKey]

lemma LeftChildIsRed_WriteKey (k : K) (v : D) (t : Tree K D) :
    LeftChildIsRed (WriteKey k v t) = LeftChildIsRed t := by
  cases t <;> simp [WriteKey, LeftChildIsRed, IsRedT_WriteKey]

lemma LeftLeftIsRed_WriteKey (k : K) (v : D) (t : Tree K D) :
    LeftLeftIsRed (WriteKey k v t) = LeftLeftIsRed t := by
  cases t <;> simp [WriteKey, LeftLeftIsRed, LeftChildIsRed_WriteKey]

lemma RotateLeft_WriteKey (k : K) (v : D) (t : Tree K D) :
    RotateLeft (WriteKey k v t) = WriteKey k v (RotateLeft t) := by
  cases t with
  | nil => rfl
  | node l key d c dd r =>
    cases r with
    | nil => rfl
    | node rl rk rd rc rdd rr => cases rc <;> simp [RotateLeft, WriteKey]

lemma RotateRight_WriteKey (k : K) (v : D) (t : Tree K D) :
    RotateRight (WriteKey k v t) = WriteKey k v (RotateRight t) := by
  cases t with
  | nil => rfl
  | node l key d c dd r =>
    cases l with
    | nil => rfl
    | node ll lk ld lc ldd lr => cases lc <;> simp [RotateRight, WriteKey]

lemma SetBlackRoot_WriteKey (k : K) (v : D) (t : Tree K D) :
    SetBlackRoot (WriteKey k v t) = WriteKey k v (SetBlackRoot t) := by
  cases t <;> simp [SetBlackRoot, WriteKey]

lemma ColorFlip_WriteKey (k : K) (v : D) (t : Tree K D) :
    ColorFlip (WriteKey k v t) = WriteKey k v (ColorFlip t) := by
  cases t <;> simp [ColorFlip, WriteKey, SetBlackRoot_WriteKey]

lemma repair_WriteKey (k : K) (v : D) (t : Tree K D) :
    repair (WriteKey k v t) = WriteKey k v (repair t) := by
  unfold repair
  simp only [RightChildIsRed_WriteKey, LeftChildIsRed_WriteKey, LeftLeftIsRed_WriteKey,
    RotateLeft_WriteKey, RotateRight_WriteKey, ColorFlip_WriteKey, ← apply_ite (WriteKey k v)]

end WriteKeyLemmas

lemma IsRedT_Erase [LinearOrder K] (t : Tree K D) (k : K) :
    IsRedT (Erase t k) = IsRedT t := by
  cases t with
  | nil => rfl
  | node l key d c dd r =>
    simp only [Erase]
    split_ifs <;> rfl

lemma bh_Erase [LinearOrder K] (t : Tree K D) (k : K) : bh (Erase t k) = bh t := by
  induction t with
  | nil => rfl
  | node l key d c dd r ihl ihr =>
    simp only [Erase]
    split_ifs <;> simp [bh_node, ihl]

lemma noRR_Erase [LinearOrder K] (t : Tree K D) (k : K) : noRR (Erase t k) = noRR t := by
  induction t with
  | nil => rfl
  | node l key d c dd r ihl ihr =>
    simp only [Erase]
    split_ifs <;> simp [noRR, IsRedT_Erase, ihl, ihr]

lemma noRedRed_Erase [LinearOrder K] (t : Tree K D) (k : K) :
    noRedRed (Erase t k) = noRedRed t := by
  induction t with
  | nil => rfl
  | node l key d c dd r ihl ihr =>
    simp only [Erase]
    split_ifs <;> simp [noRedRed, IsRedT_Erase, ihl, ihr]

lemma balancedB_Erase [LinearOrder K] (t : Tree K D) (k : K) :
    balancedB (Erase t k) = balancedB t := by
  induction t with
  | nil => rfl
  | node l key d c dd r ihl ihr =>
    simp only [Erase]
    split_ifs <;> simp [balancedB, bh_Erase, ihl, ihr]

lemma okA_Erase [LinearOrder K] (t : Tree K D) (k : K) : okA (Erase t k) = okA t := by
  simp [okA, noRR_Erase, noRedRed_Erase, balancedB_Erase]

lemma allB_Erase [LinearOrder K] (p : K → Bool) (t : Tree K D) (k : K) :
    allB p (Erase t k) = allB p t := by
  induction t with
  | nil => rfl
  | node l key d c dd r ihl ihr =>
    simp only [Erase]
    split_ifs <;> simp [allB, ihl, ihr]

lemma isBST_Erase [LinearOrder K] (t : Tree K D) (k : K) :
    isBST (Erase t k) = isBST t := by
  induction t with
  | nil => rfl
  | node l key d c dd r ihl ihr =>
    simp only [Erase]
    split_ifs <;> simp [isBST, allB_Erase, ihl, ihr]

lemma RNumNodes_Erase [LinearOrder K] (t : Tree K D) (k : K) :
    RNumNodes (Erase t k) = RNumNodes t := by
  induction t with
  | nil => rfl
  | node l key d c dd r ihl ihr =>
    simp only [Erase]
    split_ifs <;> simp [RNumNodes, ihl, ihr]

lemma keys_Erase [LinearOrder K] (t : Tree K D) (k : K) :
    (inorderAll (Erase t k)).map (fun e => e.1) =
      (inorderAll t).map (fun e => e.1) := by
  induction t with
  | nil => rfl
  | node l key d c dd r ihl ihr =>
    simp only [Erase]
    split_ifs <;> simp [inorderAll, ihl, ihr]

lemma RClone_id (t : Tree K D) : RClone t = t := by
  induction t with
  | nil => rfl
  | node l key d c dd r ihl ihr => simp [RClone, ihl, ihr]

lemma allB_node_iff {p : K → Bool} {l r : Tree K D} {k : K} {d : D} {c dd : Bool} :
    allB p (node l k d c dd r) = true ↔
      p k = true ∧ allB p l = true ∧ allB p r = true := by
  simp [allB, Bool.and_eq_true]
  tauto

lemma allB_mono {p q : K → Bool} (hpq : ∀ x, p x = true → q x = true) :
    ∀ {t : Tree K D}, allB p t = true → allB q t = true := by
  intro t h
  induction t with
  | nil => rfl
  | node l key d c dd r ihl ihr =>
    rw [allB_node_iff] at h ⊢
    exact ⟨hpq _ h.1, ihl h.2.1, ihr h.2.2⟩

lemma allB_eq_all (p : K → Bool) (t : Tree K D) :
    allB p t = (inorderAll t).all (fun e => p e.1) := by
  induction t with
  | nil => rfl
  | node l key d c dd r ihl ihr =>
    simp [allB, inorderAll, List.all_append, ihl, ihr, Bool.and_assoc, Bool.and_comm,
      Bool.and_left_comm]

lemma allB_repair (p : K → Bool) (t : Tree K D) : allB p (repair t) = allB p t := by
  rw [allB_eq_all, allB_eq_all, inorderAll_repair]

lemma allB_mem {p : K → Bool} {t : Tree K D} (h : allB p t = true)
    {e : K × D × Bool} (he : e ∈ inorderAll t) : p e.1 = true := by
  rw [allB_eq_all] at h
  exact List.all_eq_true.mp h e he

lemma allB_SetBlackRoot (p : K → Bool) (t : Tree K D) :
    allB p (SetBlackRoot t) = allB p t := by
  cases t <;> simp [SetBlackRoot, allB]

variable [LinearOrder K]

lemma isBST_node_iff {l r : Tree K D} {k : K} {d : D} {c dd : Bool} :
    isBST (node l k d c dd r) = true ↔
      allB (fun x => decide (x < k)) l = true ∧ allB (fun x => decide (k < x)) r = true ∧
        isBST l = true ∧ isBST r = true := by
  simp [isBST, Bool.and_eq_true]
  tauto

lemma isBST_SetBlackRoot (t : Tree K D) : isBST (SetBlackRoot t) = isBST t := by
  cases t <;> simp [SetBlackRoot, isBST]

lemma isBST_ColorFlip (t : Tree K D) : isBST (ColorFlip t) = isBST t := by
  cases t <;> simp [ColorFlip, isBST, allB_SetBlackRoot, isBST_SetBlackRoot]

lemma isBST_RotateLeft {t : Tree K D} (h : isBST t = true) :
    isBST (RotateLeft t) = true := by
  cases t with
  | nil => exact h
  | node l k d c dd r =>
    cases r with
    | nil => exact h
    | node rl rk rd rc rdd rr =>
      cases rc with
      | false => exact h
      | true =>
        rw [isBST_node_iff] at h
        obtain ⟨hl, hr, hbl, hbr⟩ := h
        rw [allB_node_iff] at hr
        obtain ⟨hkrk, hrl, hrr⟩ := hr
        rw [isBST_node_iff] at hbr
        obtain ⟨hrl2, hrr2, hbrl, hbrr⟩ := hbr
        have hkrk' : k < rk := by simpa using hkrk
        show isBST (node (node l k d true dd rl) rk rd c rdd rr) = true
        rw [isBST_node_iff]
        refine ⟨?_, hrr2, ?_, hbrr⟩
        · rw [allB_node_iff]
          refine ⟨by simpa using hkrk', ?_, hrl2⟩
          exact allB_mono
            (fun x hx => by simp only [decide_eq_true_eq] at hx ⊢; exact lt_trans hx hkrk') hl
        · rw [isBST_node_iff]
          exact ⟨hl, hrl, hbl, hbrl⟩

lemma isBST_RotateRight {t : Tree K D} (h : isBST t = true) :
    isBST (RotateRight t) = true := by
  cases t with
  | nil => exact h
  | node l k d c dd r =>
    cases l with
    | nil => exact h
    | node ll lk ld lc ldd lr =>
      cases lc with
      | false => exact h
      | true =>
        rw [isBST_node_iff] at h
        obtain ⟨hl, hr, hbl, hbr⟩ := h
        rw [allB_node_iff] at hl
        obtain ⟨hlkk, hll, hlr⟩ := hl
        rw [isBST_node_iff] at hbl
        obtain ⟨hll2, hlr2, hbll, hblr⟩ := hbl
        have hlkk' : lk < k := by simpa using hlkk
        show isBST (node ll lk ld c ldd (node lr k d true dd r)) = true
        rw [isBST_node_iff]
        refine ⟨hll2, ?_, hbll, ?_⟩
        · rw [allB_node_iff]
          refine ⟨by simpa using hlkk', hlr2, ?_⟩
          exact allB_mono
            (fun x hx => by simp only [decide_eq_true_eq] at hx ⊢; exact lt_trans hlkk' hx) hr
        · rw [isBST_node_iff]
          exact ⟨hlr, hr, hblr, hbr⟩

lemma isBST_repair {t : Tree K D} (h : isBST t = true) : isBST (repair t) = true := by
  have step : ∀ (b : Bool) (f : Tree K D → Tree K D),
      (∀ u : Tree K D, isBST u = true → isBST (f u) = true) →
      ∀ u : Tree K D, isBST u = true → isBST (if b = true then f u else u) = true := by
    intro b f hf u hu
    cases b
    · simpa using hu
    · simpa using hf u hu
  unfold repair
  exact step _ ColorFlip (fun u hu => by rw [isBST_ColorFlip]; exact hu) _
    (step _ RotateRight (fun u hu => isBST_RotateRight hu) _
      (step _ RotateLeft (fun u hu => isBST_RotateLeft hu) _ h))

lemma allB_RInsert {p : K → Bool} {t : Tree K D} (h : allB p t = true)
    {k : K} (hk : p k = true) (v : D) : allB p (RInsert t k v) = true := by
  induction t with
  | nil => simp [RInsert, allB, hk]
  | node l key d c dd r ihl ihr =>
    rw [allB_node_iff] at h
    obtain ⟨h1, h2, h3⟩ := h
    rw [RInsert]
    split_ifs
    · rw [allB_repair, allB_node_iff]
      exact ⟨h1, ihl h2, h3⟩
    · rw [allB_repair, allB_node_iff]
      exact ⟨h1, h2, ihr h3⟩
    · rw [allB_repair, allB_node_iff]
      exact ⟨h1, h2, h3⟩

lemma isBST_RInsert {t : Tree K D} (h : isBST t = true) (k : K) (v : D) :
    isBST (RInsert t k v) = true := by
  induction t with
  | nil => simp [RInsert, isBST, allB]
  | node l key d c dd r ihl ihr =>
    rw [isBST_node_iff] at h
    obtain ⟨h1, h2, h3, h4⟩ := h
    rw [RInsert]
    split_ifs with hlt hgt
    · apply isBST_repair
      rw [isBST_node_iff]
      exact ⟨allB_RInsert h1 (by simpa using hlt) v, h2, ihl h3, h4⟩
    · apply isBST_repair
      rw [isBST_node_iff]
      exact ⟨h1, allB_RInsert h2 (by simpa using hgt) v, h3, ihr h4⟩
    · apply isBST_repair
      rw [isBST_node_iff]
      exact ⟨h1, h2, h3, h4⟩

/-- The effect of RInsert on the structural in-order sequence: the entry
with key k is overwritten and revived, or a fresh alive entry appears at its
ordered position. -/
def entUpsert (k : K) (v : D) : List (K × D × Bool) → List (K × D × Bool)
  | [] => [(k, v, false)]
  | (k0, d0, b0) :: rest =>
    if k < k0 then (k, v, false) :: (k0, d0, b0) :: rest
    else if k0 < k then (k0, d0, b0) :: entUpsert k v rest
    else (k0, v, false) :: rest

/-- The answer of the Includes search read off the in-order sequence: the
first entry carrying key k decides (alive: its data; dead: End). -/
def entFind (k : K) : List (K × D × Bool) → Option D
  | [] => none
  | (k0, d0, b0) :: rest =>
    if k0 = k then (if b0 then none else some d0) else entFind k rest

/-- Key membership along the ordered walk of entUpsert. -/
def entMem (k : K) : List (K × D × Bool) → Bool
  | [] => false
  | (k0, _, _) :: rest => if k < k0 then false else if k0 < k then entMem k rest else true

lemma entUpsert_append_left (k : K) (v : D) (xs rest : List (K × D × Bool))
    (h : ∀ e ∈ rest, k < e.1) :
    entUpsert k v (xs ++ rest) = entUpsert k v xs ++ rest := by
  induction xs with
  | nil =>
    cases rest with
    | nil => rfl
    | cons e rest' =>
      obtain ⟨k0, d0, b0⟩ := e
      have hk : k < k0 := h _ (List.mem_cons_self _ _)
      simp [entUpsert, hk]
  | cons e xs' ih =>
    obtain ⟨k0, d0, b0⟩ := e
    simp only [List.cons_append, entUpsert]
    split_ifs <;> simp [ih]

lemma entUpsert_append_right (k : K) (v : D) (xs rest : List (K × D × Bool))
    (h : ∀ e ∈ xs, e.1 < k) :
    entUpsert k v (xs ++ rest) = xs ++ entUpsert k v rest := by
  induction xs with
  | nil => rfl
  | cons e xs' ih =>
    obtain ⟨k0, d0, b0⟩ := e
    have hk0 : k0 < k := h _ (List.mem_cons_self _ _)
    simp only [List.cons_append, entUpsert]
    rw [if_neg (by exact fun hlt => lt_asymm hk0 hlt), if_pos hk0]
    simp only [List.append_eq]
    rw [ih (fun e he => h e (List.mem_cons_of_mem _ he))]

lemma entUpsert_append_max (k : K) (v : D) (xs : List (K × D × Bool))
    (h : ∀ e ∈ xs, e.1 < k) :
    entUpsert k v xs = xs ++ [(k, v, false)] := by
  have h2 := entUpsert_append_right k v xs [] h
  simpa using h2

lemma length_entUpsert (k : K) (v : D) (L : List (K × D × Bool)) :
    (entUpsert k v L).length = L.length + (if entMem k L then 0 else 1) := by
  induction L with
  | nil => simp [entUpsert, entMem]
  | cons e L' ih =>
    obtain ⟨k0, d0, b0⟩ := e
    by_cases h1 : k < k0
    · simp [entUpsert, entMem, h1]
    · by_cases h2 : k0 < k
      · cases hm : entMem k L' <;>
          simp [entUpsert, entMem, h1, h2, ih, hm]
      · simp [entUpsert, entMem, h1, h2]

lemma entMem_entUpsert (k : K) (v : D) (L : List (K × D × Bool)) :
    entMem k (entUpsert k v L) = true := by
  induction L with
  | nil => simp [entUpsert, entMem]
  | cons e L' ih =>
    obtain ⟨k0, d0, b0⟩ := e
    simp only [entUpsert]
    split_ifs with h1 h2
    · simp [entMem]
    · simp [entMem, h1, h2, ih]
    · simp [entMem, h1, h2]

lemma entMem_congr_keys {k : K} :
    ∀ {L1 L2 : List (K × D × Bool)},
      L1.map (fun e => e.1) = L2.map (fun e => e.1) → entMem k L1 = entMem k L2 := by
  intro L1
  induction L1 with
  | nil =>
    intro L2 h
    cases L2 with
    | nil => rfl
    | cons f L2' => simp at h
  | cons e L1' ih =>
    intro L2 h
    cases L2 with
    | nil => simp at h
    | cons f L2' =>
      obtain ⟨k0, d0, b0⟩ := e
      obtain ⟨k1, d1, b1⟩ := f
      simp only [List.map_cons, List.cons.injEq] at h
      obtain ⟨hk, hmap⟩ := h
      subst hk
      simp only [entMem]
      split_ifs <;> first | rfl | exact ih hmap

lemma entFind_eq_none (k : K) (ys : List (K × D × Bool))
    (h : ∀ e ∈ ys, e.1 ≠ k) : entFind k ys = none := by
  induction ys with
  | nil => rfl
  | cons e ys' ih =>
    obtain ⟨k0, d0, b0⟩ := e
    have : k0 ≠ k := h _ (List.mem_cons_self _ _)
    simp only [entFind, if_neg this]
    exact ih (fun e he => h e (List.mem_cons_of_mem _ he))

lemma entFind_append_left (k : K) (xs ys : List (K × D × Bool))
    (h : ∀ e ∈ ys, e.1 ≠ k) :
    entFind k (xs ++ ys) = entFind k xs := by
  induction xs with
  | nil => simpa using entFind_eq_none k ys h
  | cons e xs' ih =>
    obtain ⟨k0, d0, b0⟩ := e
    simp only [List.cons_append, entFind]
    split_ifs <;> simp [ih]

lemma entFind_append_right (k : K) (xs ys : List (K × D × Bool))
    (h : ∀ e ∈ xs, e.1 ≠ k) :
    entFind k (xs ++ ys) = entFind k ys := by
  induction xs with
  | nil => rfl
  | cons e xs' ih =>
    obtain ⟨k0, d0, b0⟩ := e
    have hne : k0 ≠ k := h _ (List.mem_cons_self _ _)
    simp only [List.cons_append, entFind, if_neg hne]
    exact ih (fun e he => h e (List.mem_cons_of_mem _ he))

lemma entFind_entUpsert (k : K) (v : D) (L : List (K × D × Bool)) :
    entFind k (entUpsert k v L) = some v := by
  induction L with
  | nil => simp [entUpsert, entFind]
  | cons e L' ih =>
    obtain ⟨k0, d0, b0⟩ := e
    simp only [entUpsert]
    split_ifs with h1 h2
    · simp [entFind]
    · have hne : k0 ≠ k := ne_of_lt h2
      simp [entFind, hne, ih]
    · have hk : k0 = k := le_antisymm (not_lt.mp h1) (not_lt.mp h2)
      simp [entFind, hk]

lemma entFind_mem {k : K} {v : D} :
    ∀ {L : List (K × D × Bool)}, entFind k L = some v → (k, v, false) ∈ L := by
  intro L
  induction L with
  | nil => intro h; simp [entFind] at h
  | cons e L' ih =>
    intro h
    obtain ⟨k0, d0, b0⟩ := e
    simp only [entFind] at h
    split_ifs at h with h1 h2
    · simp only [Option.some.injEq] at h
      rw [List.mem_cons]
      left
      rw [h1, h]
      cases b0 with
      | true => exact absurd rfl h2
      | false => rfl
    · exact List.mem_cons_of_mem _ (ih h)

lemma entFind_of_mem_sorted {k : K} {v : D} :
    ∀ {L : List (K × D × Bool)}, L.Pairwise (fun a b => a.1 < b.1) →
      (k, v, false) ∈ L → entFind k L = some v := by
  intro L
  induction L with
  | nil => intro _ hm; cases hm
  | cons e L' ih =>
    intro hs hm
    obtain ⟨k0, d0, b0⟩ := e
    rw [List.pairwise_cons] at hs
    obtain ⟨he, hs'⟩ := hs
    rcases List.mem_cons.mp hm with hm | hm
    · simp only [Prod.mk.injEq] at hm
      obtain ⟨ha, hb, hc⟩ := hm
      subst ha
      subst hb
      subst hc
      simp [entFind]
    · have hk0 : k0 < k := he _ hm
      simp only [entFind, if_neg (ne_of_lt hk0)]
      exact ih hs' hm

lemma Includes_eq_entFind {t : Tree K D} (h : isBST t = true) (k : K) :
    Includes t k = entFind k (inorderAll t) := by
  induction t with
  | nil => rfl
  | node l key d c dd r ihl ihr =>
    rw [isBST_node_iff] at h
    obtain ⟨h1, h2, h3, h4⟩ := h
    rw [Includes, inorderAll]
    by_cases hlt : k < key
    · rw [if_pos hlt, entFind_append_left]
      · exact ihl h3
      · intro e he
        rcases List.mem_cons.mp he with he | he
        · rw [he]
          exact (ne_of_gt hlt)
        · have := allB_mem h2 he
          simp only [decide_eq_true_eq] at this
          exact ne_of_gt (lt_trans hlt this)
    · rw [if_neg hlt]
      by_cases hgt : key < k
      · rw [if_pos hgt]
        rw [show inorderAll l ++ (key, d, dd) :: inorderAll r =
            (inorderAll l ++ [(key, d, dd)]) ++ inorderAll r by simp]
        rw [entFind_append_right]
        · exact ihr h4
        · intro e he
          rcases List.mem_append.mp he with he | he
          · have := allB_mem h1 he
            simp only [decide_eq_true_eq] at this
            exact ne_of_lt (lt_trans this hgt)
          · rcases List.mem_singleton.mp he with he
            rw [he]
            exact ne_of_lt hgt
      · rw [if_neg hgt]
        have hk : key = k := le_antisymm (not_lt.mp hlt) (not_lt.mp hgt)
        rw [entFind_append_right]
        · simp [entFind, hk]
        · intro e he
          have := allB_mem h1 he
          simp only [decide_eq_true_eq] at this
          rw [hk] at this
          exact ne_of_lt this

lemma inorderAll_RInsert {t : Tree K D} (h : isBST t = true) (k : K) (v : D) :
    inorderAll (RInsert t k v) = entUpsert k v (inorderAll t) := by
  induction t with
  | nil => rfl
  | node l key d c dd r ihl ihr =>
    rw [isBST_node_iff] at h
    obtain ⟨h1, h2, h3, h4⟩ := h
    rw [RInsert]
    split_ifs with hlt hgt
    · rw [inorderAll_repair, inorderAll, inorderAll, ihl h3]
      rw [entUpsert_append_left]
      intro e he
      rcases List.mem_cons.mp he with he | he
      · rw [he]
        exact hlt
      · have := allB_mem h2 he
        simp only [decide_eq_true_eq] at this
        exact lt_trans hlt this
    · rw [inorderAll_repair, inorderAll, inorderAll, ihr h4]
      rw [show inorderAll l ++ (key, d, dd) :: inorderAll r =
          (inorderAll l ++ [(key, d, dd)]) ++ inorderAll r by simp]
      rw [entUpsert_append_right]
      · simp
      · intro e he
        rcases List.mem_append.mp he with he | he
        · have := allB_mem h1 he
          simp only [decide_eq_true_eq] at this
          exact lt_trans this hgt
        · rcases List.mem_singleton.mp he with he
          rw [he]
          exact hgt
    · have hk : key = k := le_antisymm (not_lt.mp hlt) (not_lt.mp hgt)
      have hside : ∀ e ∈ inorderAll l, e.1 < k := by
        intro e he
        have := allB_mem h1 he
        simp only [decide_eq_true_eq] at this
        rw [hk] at this
        exact this
      rw [inorderAll_repair, inorderAll, inorderAll,
        entUpsert_append_right k v (inorderAll l) _ hside]
      simp [entUpsert, hlt, hgt]

lemma WriteKey_id {k : K} {v : D} {t : Tree K D}
    (h : ∀ e ∈ inorderAll t, e.1 ≠ k) : WriteKey k v t = t := by
  induction t with
  | nil => rfl
  | node l key d c dd r ihl ihr =>
    have hkey : key ≠ k := h (key, d, dd) (by simp [inorderAll])
    rw [WriteKey, if_neg hkey]
    rw [ihl (fun e he => h e (by simp [inorderAll, he])),
      ihr (fun e he => h e (by simp [inorderAll, he]))]

lemma WriteKey_RGet [Inhabited D] {t : Tree K D} (h : isBST t = true) (k : K) (v : D) :
    WriteKey k v (RGet t k) = RInsert t k v := by
  induction t with
  | nil =>
    show WriteKey k v (node nil k default true false nil) = node nil k v true false nil
    simp [WriteKey]
  | node l key d c dd r ihl ihr =>
    rw [isBST_node_iff] at h
    obtain ⟨h1, h2, h3, h4⟩ := h
    have hrid : ∀ e ∈ inorderAll r, e.1 ≠ k → True := fun _ _ _ => trivial
    rw [RGet, RInsert]
    split_ifs with hlt hgt
    · rw [← repair_WriteKey]
      congr 1
      rw [WriteKey, if_neg (ne_of_gt hlt), ihl h3]
      rw [WriteKey_id (fun e he => by
        have := allB_mem h2 he
        simp only [decide_eq_true_eq] at this
        exact ne_of_gt (lt_trans hlt this))]
    · rw [← repair_WriteKey]
      congr 1
      rw [WriteKey, if_neg (ne_of_lt hgt), ihr h4]
      rw [WriteKey_id (fun e he => by
        have := allB_mem h1 he
        simp only [decide_eq_true_eq] at this
        exact ne_of_lt (lt_trans this hgt))]
    · have hk : key = k := le_antisymm (not_lt.mp hlt) (not_lt.mp hgt)
      rw [← repair_WriteKey]
      congr 1
      rw [WriteKey, if_pos hk]
      rw [WriteKey_id (fun e he => by
        have := allB_mem h1 he
        simp only [decide_eq_true_eq] at this
        rw [hk] at this
        exact ne_of_lt this)]
      rw [WriteKey_id (fun e he => by
        have := allB_mem h2 he
        simp only [decide_eq_true_eq] at this
        rw [hk] at this
        exact ne_of_gt this)]

/-- Put is Get followed by the assignment through the returned reference;
on a BST this produces exactly RInsert followed by blackening the root. -/
lemma Put_eq [Inhabited D] {t : Tree K D} (h : isBST t = true) (k : K) (v : D) :
    Put t k v = SetBlackRoot (RInsert t k v) := by
  rw [Put, Get, ← SetBlackRoot_WriteKey, WriteKey_RGet h]

lemma bh_WriteKey (k : K) (v : D) (t : Tree K D) : bh (WriteKey k v t) = bh t := by
  induction t with
  | nil => rfl
  | node l key d c dd r ihl ihr => simp [WriteKey, bh, ihl]

lemma noRR_WriteKey (k : K) (v : D) (t : Tree K D) :
    noRR (WriteKey k v t) = noRR t := by
  induction t with
  | nil => rfl
  | node l key d c dd r ihl ihr => simp [WriteKey, noRR, IsRedT_WriteKey, ihl, ihr]

lemma noRedRed_WriteKey (k : K) (v : D) (t : Tree K D) :
    noRedRed (WriteKey k v t) = noRedRed t := by
  induction t with
  | nil => rfl
  | node l key d c dd r ihl ihr => simp [WriteKey, noRedRed, IsRedT_WriteKey, ihl, ihr]

lemma balancedB_WriteKey (k : K) (v : D) (t : Tree K D) :
    balancedB (WriteKey k v t) = balancedB t := by
  induction t with
  | nil => rfl
  | node l key d c dd r ihl ihr => simp [WriteKey, balancedB, bh_WriteKey, ihl, ihr]

lemma okA_WriteKey (k : K) (v : D) (t : Tree K D) : okA (WriteKey k v t) = okA t := by
  simp [okA, noRR_WriteKey, noRedRed_WriteKey, balancedB_WriteKey]

lemma allB_WriteKey (p : K → Bool) (k : K) (v : D) (t : Tree K D) :
    allB p (WriteKey k v t) = allB p t := by
  induction t with
  | nil => rfl
  | node l key d c dd r ihl ihr => simp [WriteKey, allB, ihl, ihr]

lemma isBST_WriteKey (k : K) (v : D) (t : Tree K D) :
    isBST (WriteKey k v t) = isBST t := by
  induction t with
  | nil => rfl
  | node l key d c dd r ihl ihr => simp [WriteKey, isBST, allB_WriteKey, ihl, ihr]

lemma Get_inv [Inhabited D] {t : Tree K D} (hb : isBST t = true) (h : okA t = true)
    (k : K) :
    isBST (Get t k) = true ∧ okA (Get t k) = true ∧ IsRedT (Get t k) = false := by
  have hw : WriteKey k (default : D) (RGet t k) = RInsert t k default :=
    WriteKey_RGet hb k default
  refine ⟨?_, ?_, IsRedT_SetBlackRoot _⟩
  · rw [Get, isBST_SetBlackRoot, ← isBST_WriteKey k (default : D), hw]
    exact isBST_RInsert hb k default
  · have h2 : okA (WriteKey k (default : D) (Get t k)) = true := by
      rw [Get, ← SetBlackRoot_WriteKey, hw]
      exact (RInsert_black_ok h k default).1
    rw [okA_WriteKey] at h2
    exact h2

lemma Put_inv [Inhabited D] {t : Tree K D} (hb : isBST t = true) (h : okA t = true)
    (k : K) (v : D) :
    isBST (Put t k v) = true ∧ okA (Put t k v) = true ∧ IsRedT (Put t k v) = false := by
  rw [Put_eq hb]
  refine ⟨?_, (RInsert_black_ok h k v).1, IsRedT_SetBlackRoot _⟩
  rw [isBST_SetBlackRoot]
  exact isBST_RInsert hb k v

lemma Rehash_fold_inv :
    ∀ (xs : List (K × D)) (acc : Tree K D), isBST acc = true → okA acc = true →
      IsRedT acc = false →
      isBST (xs.foldl (fun a e => SetBlackRoot (RInsert a e.1 e.2)) acc) = true ∧
        okA (xs.foldl (fun a e => SetBlackRoot (RInsert a e.1 e.2)) acc) = true ∧
        IsRedT (xs.foldl (fun a e => SetBlackRoot (RInsert a e.1 e.2)) acc) = false := by
  intro xs
  induction xs with
  | nil => intro acc h1 h2 h3; exact ⟨h1, h2, h3⟩
  | cons e xs' ih =>
    intro acc h1 h2 _
    simp only [List.foldl_cons]
    refine ih _ ?_ (RInsert_black_ok h2 e.1 e.2).1 (IsRedT_SetBlackRoot _)
    rw [isBST_SetBlackRoot]
    exact isBST_RInsert h1 e.1 e.2

/-- Every tree reachable by the public operations is a BST satisfying the
strict LLRB color conditions with a black root. -/
lemma reachable_inv [Inhabited D] {t : Tree K D} (h : Reachable t) :
    isBST t = true ∧ okA t = true ∧ IsRedT t = false := by
  induction h with
  | empty => exact ⟨rfl, rfl, rfl⟩
  | get t k _ ih => exact Get_inv ih.1 ih.2.1 k
  | put t k v _ ih => exact Put_inv ih.1 ih.2.1 k v
  | erase t k _ ih =>
    rw [isBST_Erase, okA_Erase, IsRedT_Erase]
    exact ih
  | clear t _ _ => exact ⟨rfl, rfl, rfl⟩
  | rehash t _ ih => exact Rehash_fold_inv (inorderLive t) nil rfl rfl rfl
  | copy t _ ih =>
    rw [RClone_id]
    exact ih

lemma okA_leftLeaning {t : Tree K D} (h : okA t = true) : leftLeaning t = true := by
  induction t with
  | nil => rfl
  | node l key d c dd r ihl ihr =>
    rw [okA_node_iff] at h
    obtain ⟨h1, _, _, h4, h5⟩ := h
    simp [leftLeaning, h1, ihl h4, ihr h5]

lemma okA_noTwoRedLeft {t : Tree K D} (h : okA t = true) : noTwoRedLeft t = true := by
  induction t with
  | nil => rfl
  | node l key d c dd r ihl ihr =>
    rw [okA_node_iff] at h
    obtain ⟨h1, h2, h3, h4, h5⟩ := h
    have hll : IsRedT l = true → LeftChildIsRed l = false := by
      intro hred
      cases l with
      | nil => simp at hred
      | node ll lk ld lc ldd lr =>
        simp at hred
        subst hred
        rw [okA_node_iff] at h4
        simp [LeftChildIsRed, h4.2.1 rfl]
    cases hl3 : IsRedT l with
    | false => simp [noTwoRedLeft, hl3, ihl h4, ihr h5]
    | true => simp [noTwoRedLeft, hl3, hll hl3, ihl h4, ihr h5]

lemma okA_balanced {t : Tree K D} (h : okA t = true) : balancedB t = true := by
  simp only [okA, Bool.and_eq_true] at h
  exact h.2

lemma okA_noRR {t : Tree K D} (h : okA t = true) : noRR t = true := by
  simp only [okA, Bool.and_eq_true] at h
  exact h.1.1

lemma okA_noRedRed {t : Tree K D} (h : okA t = true) : noRedRed t = true := by
  simp only [okA, Bool.and_eq_true] at h
  exact h.1.2

lemma numNodes_ge_pow {t : Tree K D} (h : balancedB t = true) :
    2 ^ bh t ≤ RNumNodes t + 1 := by
  induction t with
  | nil => simp [bh, RNumNodes]
  | node l key d c dd r ihl ihr =>
    simp only [balancedB, Bool.and_eq_true, beq_iff_eq] at h
    obtain ⟨⟨hbl, h2⟩, h3⟩ := h
    have il := ihl h2
    have ir := ihr h3
    have hn : RNumNodes (node l key d c dd r) = 1 + RNumNodes l + RNumNodes r := rfl
    cases c with
    | true =>
      have hb : bh (node l key d true dd r) = bh l := by simp [bh_node]
      rw [hb, hn]
      omega
    | false =>
      have hb : bh (node l key d false dd r) = bh l + 1 := by simp [bh_node]
      have ir2 : 2 ^ bh l ≤ RNumNodes r + 1 := by rw [hbl]; exact ir
      rw [hb, hn, pow_succ]
      omega

lemma heightN_le {t : Tree K D} (h : okA t = true) :
    heightN t ≤ 2 * bh t + (if IsRedT t then 1 else 0) := by
  induction t with
  | nil => simp [heightN, bh]
  | node l key d c dd r ihl ihr =>
    rw [okA_node_iff] at h
    obtain ⟨h1, h2, h3, h4, h5⟩ := h
    have il := ihl h4
    have ir := ihr h5
    have il' : heightN l ≤ 2 * bh l + 1 := by
      cases hc : IsRedT l <;> rw [hc] at il <;> simp at il <;> omega
    have ir' : heightN r ≤ 2 * bh r + 1 := by
      cases hc : IsRedT r <;> rw [hc] at ir <;> simp at ir <;> omega
    have hh : heightN (node l key d c dd r) = 1 + max (heightN l) (heightN r) := rfl
    cases c with
    | true =>
      have hl0 : IsRedT l = false := h2 rfl
      have il0 : heightN l ≤ 2 * bh l := by
        rw [hl0] at il
        simpa using il
      have ir0 : heightN r ≤ 2 * bh r := by
        rw [h1] at ir
        simpa using ir
      have hb : bh (node l key d true dd r) = bh l := by simp [bh_node]
      rw [hh, hb]
      simp only [IsRedT_node, if_true]
      have hm : max (heightN l) (heightN r) ≤ 2 * bh l := by
        apply max_le
        · exact il0
        · rw [h3]
          exact ir0
      omega
    | false =>
      have hb : bh (node l key d false dd r) = bh l + 1 := by simp [bh_node]
      rw [hh, hb]
      simp only [IsRedT_node]
      have hm : max (heightN l) (heightN r) ≤ 2 * bh l + 1 := by
        apply max_le
        · exact il'
        · rw [← h3] at ir'
          exact ir'
      simp
      omega

lemma RHeight_eq_heightN (t : Tree K D) : RHeight t = (heightN t : Int) - 1 := by
  induction t with
  | nil => simp [RHeight, heightN]
  | node l key d c dd r ihl ihr =>
    show (let lh := RHeight l
          let rh := RHeight r
          if lh < rh then 1 + rh else 1 + lh) = _
    simp only [ihl, ihr]
    have hh : heightN (node l key d c dd r) = 1 + max (heightN l) (heightN r) := rfl
    rw [hh]
    split_ifs with hc
    · have : heightN l ≤ heightN r := by omega
      rw [max_eq_right this]
      push_cast
      omega
    · have : heightN r ≤ heightN l := by omega
      rw [max_eq_left this]
      push_cast
      omega

lemma bh_le_log {t : Tree K D} (h : balancedB t = true) :
    bh t ≤ Nat.log 2 (RNumNodes t + 1) :=
  (Nat.pow_le_iff_le_log (by norm_num) (by omega)).mp (numNodes_ge_pow h)

lemma height_bound {t : Tree K D} (hok : okA t = true) (hred : IsRedT t = false) :
    RHeight t ≤ 2 * (Nat.log 2 (RNumNodes t + 1) : Int) := by
  have h1 : heightN t ≤ 2 * bh t := by
    have h0 := heightN_le hok
    rw [hred] at h0
    simpa using h0
  have h2 : bh t ≤ Nat.log 2 (RNumNodes t + 1) := bh_le_log (okA_balanced hok)
  rw [RHeight_eq_heightN]
  have h3 : heightN t ≤ 2 * Nat.log 2 (RNumNodes t + 1) := by omega
  omega

lemma inorderLive_eq_filterMap (t : Tree K D) :
    inorderLive t = (inorderAll t).filterMap
      (fun e => if e.2.2 then none else some (e.1, e.2.1)) := by
  induction t with
  | nil => rfl
  | node l key d c dd r ihl ihr =>
    cases dd <;>
      simp [inorderLive, inorderAll, List.filterMap_append, List.filterMap_cons, ihl, ihr]

lemma RSize_eq_length_live (t : Tree K D) : RSize t = (inorderLive t).length := by
  induction t with
  | nil => rfl
  | node l key d c dd r ihl ihr =>
    cases dd
    · simp [RSize, inorderLive, ihl, ihr]
      omega
    · simp [RSize, inorderLive, ihl, ihr]

lemma RNumNodes_eq_length (t : Tree K D) : RNumNodes t = (inorderAll t).length := by
  induction t with
  | nil => rfl
  | node l key d c dd r ihl ihr =>
    simp [RNumNodes, inorderAll, ihl, ihr]
    omega

lemma RNumNodes_SetBlackRoot (t : Tree K D) :
    RNumNodes (SetBlackRoot t) = RNumNodes t := by
  cases t <;> simp [SetBlackRoot, RNumNodes]

lemma allB_mem_live {p : K → Bool} {t : Tree K D} (h : allB p t = true)
    {e : K × D} (he : e ∈ inorderLive t) : p e.1 = true := by
  rw [inorderLive_eq_filterMap] at he
  rcases List.mem_filterMap.mp he with ⟨a, ha, hfa⟩
  have hp := allB_mem h ha
  split_ifs at hfa
  simp only [Option.some.injEq] at hfa
  rw [← hfa]
  exact hp

lemma isBST_pairwise_live {t : Tree K D} (h : isBST t = true) :
    (inorderLive t).Pairwise (fun a b => a.1 < b.1) := by
  induction t with
  | nil => simp [inorderLive]
  | node l key d c dd r ihl ihr =>
    rw [isBST_node_iff] at h
    obtain ⟨h1, h2, h3, h4⟩ := h
    rw [inorderLive, List.append_assoc, List.pairwise_append]
    refine ⟨ihl h3, ?_, ?_⟩
    · rw [List.pairwise_append]
      refine ⟨?_, ihr h4, ?_⟩
      · cases dd <;> simp
      · intro a ha b hb
        cases dd with
        | true => simp at ha
        | false =>
          rcases List.mem_singleton.mp ha with ha
          rw [ha]
          have := allB_mem_live h2 hb
          simpa using this
    · intro a ha b hb
      have hak : a.1 < key := by
        have := allB_mem_live h1 ha
        simpa using this
      rcases List.mem_append.mp hb with hb | hb
      · cases dd with
        | true => simp at hb
        | false =>
          rcases List.mem_singleton.mp hb with hb
          rw [hb]
          exact hak
      · have hbk : key < b.1 := by
          have := allB_mem_live h2 hb
          simpa using this
        exact lt_trans hak hbk

lemma Rehash_fold_content :
    ∀ (xs : List (K × D)) (acc : Tree K D),
      isBST acc = true →
      (∀ e ∈ inorderAll acc, ∀ x ∈ xs, e.1 < x.1) →
      xs.Pairwise (fun a b => a.1 < b.1) →
      inorderAll (xs.foldl (fun a e => SetBlackRoot (RInsert a e.1 e.2)) acc) =
        inorderAll acc ++ xs.map (fun e => (e.1, e.2, false)) := by
  intro xs
  induction xs with
  | nil =>
    intro acc _ _ _
    simp
  | cons e xs' ih =>
    intro acc hb hlt hp
    obtain ⟨k, v⟩ := e
    simp only [List.foldl_cons]
    have hstep : inorderAll (SetBlackRoot (RInsert acc k v)) =
        inorderAll acc ++ [(k, v, false)] := by
      rw [inorderAll_SetBlackRoot, inorderAll_RInsert hb]
      exact entUpsert_append_max k v _
        (fun e2 he2 => hlt e2 he2 (k, v) (List.mem_cons_self _ _))
    have hb' : isBST (SetBlackRoot (RInsert acc k v)) = true := by
      rw [isBST_SetBlackRoot]
      exact isBST_RInsert hb k v
    have hhead := (List.pairwise_cons.mp hp).1
    have hp' := (List.pairwise_cons.mp hp).2
    have hlt' : ∀ e2 ∈ inorderAll (SetBlackRoot (RInsert acc k v)),
        ∀ x ∈ xs', e2.1 < x.1 := by
      intro e2 he2 x hx
      rw [hstep] at he2
      rcases List.mem_append.mp he2 with he2 | he2
      · exact hlt e2 he2 x (List.mem_cons_of_mem _ hx)
      · rcases List.mem_singleton.mp he2 with he2
        rw [he2]
        exact hhead x hx
    rw [ih _ hb' hlt' hp', hstep]
    simp

lemma inorderAll_Rehash {t : Tree K D} (hb : isBST t = true) :
    inorderAll (Rehash t) = (inorderLive t).map (fun e => (e.1, e.2, false)) := by
  rw [Rehash]
  have h := Rehash_fold_content (inorderLive t) nil rfl
      (by intro e he _ _; simp [inorderAll] at he) (isBST_pairwise_live hb)
  simpa using h

lemma inorderLive_Rehash {t : Tree K D} (hb : isBST t = true) :
    inorderLive (Rehash t) = inorderLive t := by
  rw [inorderLive_eq_filterMap, inorderAll_Rehash hb, List.filterMap_map]
  have : ((fun (e : K × D × Bool) => if e.2.2 then none else some (e.1, e.2.1)) ∘
      (fun (e : K × D) => (e.1, e.2, false))) = fun e => some (e.1, e.2) := by
    funext e
    simp
  rw [this]
  simp

lemma EntriesEq_iff [DecidableEq D] :
    ∀ (xs ys : List (K × D)), EntriesEq xs ys = true ↔ xs = ys := by
  intro xs
  induction xs with
  | nil =>
    intro ys
    cases ys with
    | nil => simp [EntriesEq]
    | cons f ys' =>
      obtain ⟨k2, d2⟩ := f
      simp [EntriesEq]
  | cons e xs' ih =>
    intro ys
    cases ys with
    | nil =>
      obtain ⟨k1, d1⟩ := e
      simp [EntriesEq]
    | cons f ys' =>
      obtain ⟨k1, d1⟩ := e
      obtain ⟨k2, d2⟩ := f
      simp only [EntriesEq]
      split_ifs with h1 h2
      · subst h1
        subst h2
        simp [ih]
      · subst h1
        simp [h2]
      · simp [h1]

lemma inorderLive_nil_of_size {t : Tree K D} (h : RSize t = 0) :
    inorderLive t = [] := by
  have h2 := RSize_eq_length_live t
  rw [h] at h2
  exact List.length_eq_zero.mp h2.symm

lemma isBST_Put [Inhabited D] {t : Tree K D} (hb : isBST t = true) (k : K) (v : D) :
    isBST (Put t k v) = true := by
  rw [Put_eq hb, isBST_SetBlackRoot]
  exact isBST_RInsert hb k v

lemma isBST_pairwise_all {t : Tree K D} (h : isBST t = true) :
    (inorderAll t).Pairwise (fun a b => a.1 < b.1) := by
  induction t with
  | nil => simp [inorderAll]
  | node l key d c dd r ihl ihr =>
    rw [isBST_node_iff] at h
    obtain ⟨h1, h2, h3, h4⟩ := h
    rw [inorderAll, List.pairwise_append]
    refine ⟨ihl h3, ?_, ?_⟩
    · rw [List.pairwise_cons]
      refine ⟨?_, ihr h4⟩
      intro b hb
      have := allB_mem h2 hb
      simpa using this
    · intro a ha b hb
      have hak : a.1 < key := by
        have := allB_mem h1 ha
        simpa using this
      rcases List.mem_cons.mp hb with hb | hb
      · rw [hb]
        exact hak
      · have : key < b.1 := by
          have := allB_mem h2 hb
          simpa using this
        exact lt_trans hak this

lemma Includes_iff_mem_live {t : Tree K D} (h : isBST t = true) (k : K) (v : D) :
    Includes t k = some v ↔ (k, v) ∈ inorderLive t := by
  rw [Includes_eq_entFind h]
  constructor
  · intro hf
    have hm := entFind_mem hf
    rw [inorderLive_eq_filterMap]
    exact List.mem_filterMap.mpr ⟨(k, v, false), hm, by simp⟩
  · intro hm
    rw [inorderLive_eq_filterMap] at hm
    rcases List.mem_filterMap.mp hm with ⟨a, ha, hfa⟩
    obtain ⟨ak, ad, ab⟩ := a
    split_ifs at hfa with hab
    simp only [Option.some.injEq, Prod.mk.injEq] at hfa
    obtain ⟨h1', h2'⟩ := hfa
    subst h1'
    subst h2'
    have hab' : ab = false := by simpa using hab
    subst hab'
    exact entFind_of_mem_sorted (isBST_pairwise_all h) ha

lemma RNumNodes_Put_le [Inhabited D] {t : Tree K D} (hb : isBST t = true) (k : K) (v : D) :
    RNumNodes (Put t k v) ≤ RNumNodes t + 1 := by
  rw [Put_eq hb, RNumNodes_SetBlackRoot, RNumNodes_eq_length, RNumNodes_eq_length,
    inorderAll_RInsert hb, length_entUpsert]
  split_ifs <;> omega

lemma Reachable_foldl_put :
    ∀ (xs : List Nat) (f g : Nat → Nat) (t : Tree Nat Nat), Reachable t →
      Reachable (xs.foldl (fun a i => Put a (f i) (g i)) t) := by
  intro xs
  induction xs with
  | nil => intro f g t ht; exact ht
  | cons x xs' ih =>
    intro f g t ht
    exact ih f g _ (Reachable.put t (f x) (g x) ht)

lemma RNumNodes_foldl_put_le :
    ∀ (xs : List Nat) (f g : Nat → Nat) (t : Tree Nat Nat), Reachable t →
      RNumNodes (xs.foldl (fun a i => Put a (f i) (g i)) t) ≤
        RNumNodes t + xs.length := by
  intro xs
  induction xs with
  | nil =>
    intro f g t _
    simp
  | cons x xs' ih =>
    intro f g t ht
    simp only [List.foldl_cons, List.length_cons]
    have h1 := ih f g (Put t (f x) (g x)) (Reachable.put t (f x) (g x) ht)
    have h2 : RNumNodes (Put t (f x) (g x)) ≤ RNumNodes t + 1 :=
      RNumNodes_Put_le (reachable_inv ht).1 (f x) (g x)
    omega

lemma Reachable_buildAsc (n : Nat) : Reachable (buildAsc n) :=
  Reachable_foldl_put (List.range n) (fun i => i + 1) (fun _ => 0) nil Reachable.empty

lemma Reachable_buildDesc (n : Nat) : Reachable (buildDesc n) :=
  Reachable_foldl_put (List.range n) (fun i => n - i) (fun _ => 0) nil Reachable.empty

lemma RNumNodes_buildAsc_le (n : Nat) : RNumNodes (buildAsc n) ≤ n := by
  have h := RNumNodes_foldl_put_le (List.range n) (fun i => i + 1) (fun _ => 0) nil
    Reachable.empty
  simpa [buildAsc, RNumNodes] using h

lemma RNumNodes_buildDesc_le (n : Nat) : RNumNodes (buildDesc n) ≤ n := by
  have h := RNumNodes_foldl_put_le (List.range n) (fun i => n - i) (fun _ => 0) nil
    Reachable.empty
  simpa [buildDesc, RNumNodes] using h

/-- C1: for every map state reachable by public operations, Rehash leaves the
map with no tombstones (NumNodes = Size), with the live in-order (key, value)
sequence identical to the one before the call, and with every structural
invariant intact: BST order, no red right child with black left child, no two
consecutive red left children, equal black count on every root-to-null path,
black root. -/
theorem claim_C1 [Inhabited D] {t : Tree K D} (h : Reachable t) :
    RNumNodes (Rehash t) = RSize (Rehash t) ∧
      inorderLive (Rehash t) = inorderLive t ∧
      isBST (Rehash t) = true ∧ leftLeaning (Rehash t) = true ∧
      noTwoRedLeft (Rehash t) = true ∧ balancedB (Rehash t) = true ∧
      IsRedT (Rehash t) = false := by
  have hb := (reachable_inv h).1
  have hreh : isBST (Rehash t) = true ∧ okA (Rehash t) = true ∧
      IsRedT (Rehash t) = false := by
    rw [Rehash]
    exact Rehash_fold_inv (inorderLive t) nil rfl rfl rfl
  refine ⟨?_, inorderLive_Rehash hb, hreh.1, okA_leftLeaning hreh.2.1,
    okA_noTwoRedLeft hreh.2.1, okA_balanced hreh.2.1, hreh.2.2⟩
  rw [RNumNodes_eq_length, RSize_eq_length_live, inorderAll_Rehash hb,
    inorderLive_Rehash hb]
  simp

theorem claim_C1_witness :
    Reachable (Erase (Put (Put (nil : Tree Nat Nat) 1 10) 2 20) 1) ∧
      (RNumNodes (Rehash (Erase (Put (Put (nil : Tree Nat Nat) 1 10) 2 20) 1)) =
          RSize (Rehash (Erase (Put (Put (nil : Tree Nat Nat) 1 10) 2 20) 1)) ∧
        inorderLive (Rehash (Erase (Put (Put (nil : Tree Nat Nat) 1 10) 2 20) 1)) =
          inorderLive (Erase (Put (Put (nil : Tree Nat Nat) 1 10) 2 20) 1) ∧
        isBST (Rehash (Erase (Put (Put (nil : Tree Nat Nat) 1 10) 2 20) 1)) = true ∧
        leftLeaning (Rehash (Erase (Put (Put (nil : Tree Nat Nat) 1 10) 2 20) 1)) = true ∧
        noTwoRedLeft (Rehash (Erase (Put (Put (nil : Tree Nat Nat) 1 10) 2 20) 1)) = true ∧
        balancedB (Rehash (Erase (Put (Put (nil : Tree Nat Nat) 1 10) 2 20) 1)) = true ∧
        IsRedT (Rehash (Erase (Put (Put (nil : Tree Nat Nat) 1 10) 2 20) 1)) = false) :=
  ⟨Reachable.erase _ 1 (Reachable.put _ 2 20 (Reachable.put _ 1 10 Reachable.empty)),
    claim_C1 (Reachable.erase _ 1 (Reachable.put _ 2 20
      (Reachable.put _ 1 10 Reachable.empty)))⟩

/-- C2: after any sequence of public operations (Get, Put, Insert, Erase,
Clear, Rehash, deep copy, assignment) the tree satisfies BST order, the
left-leaning red-black conditions (no red right child with black left child,
no two consecutive red left children, equal black count on every
root-to-null path) and the root, if present, is black. -/
theorem claim_C2 [Inhabited D] {t : Tree K D} (h : Reachable t) :
    isBST t = true ∧ leftLeaning t = true ∧ noTwoRedLeft t = true ∧
      balancedB t = true ∧ IsRedT t = false := by
  obtain ⟨h1, h2, h3⟩ := reachable_inv h
  exact ⟨h1, okA_leftLeaning h2, okA_noTwoRedLeft h2, okA_balanced h2, h3⟩

theorem claim_C2_witness :
    Reachable (Put (Put (Put (nil : Tree Nat Nat) 5 1) 3 2) 8 3) ∧
      (isBST (Put (Put (Put (nil : Tree Nat Nat) 5 1) 3 2) 8 3) = true ∧
        leftLeaning (Put (Put (Put (nil : Tree Nat Nat) 5 1) 3 2) 8 3) = true ∧
        noTwoRedLeft (Put (Put (Put (nil : Tree Nat Nat) 5 1) 3 2) 8 3) = true ∧
        balancedB (Put (Put (Put (nil : Tree Nat Nat) 5 1) 3 2) 8 3) = true ∧
        IsRedT (Put (Put (Put (nil : Tree Nat Nat) 5 1) 3 2) 8 3) = false) :=
  ⟨Reachable.put _ 8 3 (Reachable.put _ 3 2 (Reachable.put _ 5 1 Reachable.empty)),
    claim_C2 (Reachable.put _ 8 3 (Reachable.put _ 3 2
      (Reachable.put _ 5 1 Reachable.empty)))⟩

/-- C3: every reachable map state satisfies the LLRB balance bound
Height ≤ 2·log2(NumNodes + 1); in particular the maps built by inserting
keys 1..N in ascending order, or N..1 in descending order, into a fresh map
satisfy Height ≤ 2·log2(N + 1). -/
theorem claim_C3 :
    (∀ (K D : Type) [LinearOrder K] [Inhabited D] (t : Tree K D), Reachable t →
        RHeight t ≤ 2 * (Nat.log 2 (RNumNodes t + 1) : Int)) ∧
      ∀ n : Nat, RHeight (buildAsc n) ≤ 2 * (Nat.log 2 (n + 1) : Int) ∧
        RHeight (buildDesc n) ≤ 2 * (Nat.log 2 (n + 1) : Int) := by
  have main : ∀ (K D : Type) [LinearOrder K] [Inhabited D] (t : Tree K D),
      Reachable t → RHeight t ≤ 2 * (Nat.log 2 (RNumNodes t + 1) : Int) := by
    intro K D _ _ t h
    obtain ⟨_, h2, h3⟩ := reachable_inv h
    exact height_bound h2 h3
  refine ⟨main, fun n => ⟨?_, ?_⟩⟩
  · have hm := main Nat Nat (buildAsc n) (Reachable_buildAsc n)
    have hn := RNumNodes_buildAsc_le n
    have hlog : Nat.log 2 (RNumNodes (buildAsc n) + 1) ≤ Nat.log 2 (n + 1) :=
      Nat.log_mono_right (by omega)
    omega
  · have hm := main Nat Nat (buildDesc n) (Reachable_buildDesc n)
    have hn := RNumNodes_buildDesc_le n
    have hlog : Nat.log 2 (RNumNodes (buildDesc n) + 1) ≤ Nat.log 2 (n + 1) :=
      Nat.log_mono_right (by omega)
    omega

theorem claim_C3_witness :
    Reachable (Put (Put (Put (nil : Tree Nat Nat) 1 0) 2 0) 3 0) ∧
      RHeight (Put (Put (Put (nil : Tree Nat Nat) 1 0) 2 0) 3 0) ≤
        2 * (Nat.log 2 (RNumNodes (Put (Put (Put (nil : Tree Nat Nat) 1 0) 2 0) 3 0) + 1) : Int) :=
  ⟨Reachable.put _ 3 0 (Reachable.put _ 2 0 (Reachable.put _ 1 0 Reachable.empty)),
    claim_C3.1 Nat Nat _ (Reachable.put _ 3 0 (Reachable.put _ 2 0
      (Reachable.put _ 1 0 Reachable.empty)))⟩

/-- C4: on any BST state, Put(k,v); Erase(k); Put(k,v) ends with Retrieve(k)
returning (true, v), and NumNodes is unchanged by the second Put (the
tombstone is resurrected in place, no node is allocated) just as it was
unchanged by the Erase (which only marks the node dead and frees nothing). -/
theorem claim_C4 [Inhabited D] {t : Tree K D} (h : isBST t = true) (k : K) (v d : D) :
    Retrieve (Put (Erase (Put t k v) k) k v) k d = (true, v) ∧
      RNumNodes (Put (Erase (Put t k v) k) k v) = RNumNodes (Erase (Put t k v) k) ∧
      RNumNodes (Erase (Put t k v) k) = RNumNodes (Put t k v) := by
  have hb1 : isBST (Put t k v) = true := isBST_Put h k v
  have hb2 : isBST (Erase (Put t k v) k) = true := by
    rw [isBST_Erase]
    exact hb1
  have hA1 : inorderAll (Put t k v) = entUpsert k v (inorderAll t) := by
    rw [Put_eq h, inorderAll_SetBlackRoot, inorderAll_RInsert h]
  have hm2 : entMem k (inorderAll (Erase (Put t k v) k)) = true := by
    rw [entMem_congr_keys (keys_Erase (Put t k v) k), hA1]
    exact entMem_entUpsert k v _
  have hA3 : inorderAll (Put (Erase (Put t k v) k) k v) =
      entUpsert k v (inorderAll (Erase (Put t k v) k)) := by
    rw [Put_eq hb2, inorderAll_SetBlackRoot, inorderAll_RInsert hb2]
  refine ⟨?_, ?_, RNumNodes_Erase _ k⟩
  · have hi : Includes (Put (Erase (Put t k v) k) k v) k = some v := by
      rw [Includes_eq_entFind (isBST_Put hb2 k v), hA3]
      exact entFind_entUpsert k v _
    simp [Retrieve, hi]
  · rw [RNumNodes_eq_length, RNumNodes_eq_length, hA3, length_entUpsert, hm2]
    simp

theorem claim_C4_witness :
    isBST (nil : Tree Nat Nat) = true ∧
      (Retrieve (Put (Erase (Put (nil : Tree Nat Nat) 5 7) 5) 5 7) 5 99 = (true, 7) ∧
        RNumNodes (Put (Erase (Put (nil : Tree Nat Nat) 5 7) 5) 5 7) =
          RNumNodes (Erase (Put (nil : Tree Nat Nat) 5 7) 5) ∧
        RNumNodes (Erase (Put (nil : Tree Nat Nat) 5 7) 5) =
          RNumNodes (Put (nil : Tree Nat Nat) 5 7)) :=
  ⟨rfl, @claim_C4 Nat Nat _ _ nil rfl 5 7 99⟩

/-- C5: on any BST state, Retrieve(k, d) returns true and hands out the
stored value exactly when a live entry with key k exists; when the key is
absent or present only as a tombstone it returns false and leaves the out
slot untouched. -/
theorem claim_C5 {t : Tree K D} (h : isBST t = true) (k : K) (d : D) :
    (∀ v : D, (k, v) ∈ inorderLive t ↔ Retrieve t k d = (true, v)) ∧
      ((∀ v : D, (k, v) ∉ inorderLive t) → Retrieve t k d = (false, d)) := by
  constructor
  · intro v
    rw [← Includes_iff_mem_live h]
    constructor
    · intro hv
      simp [Retrieve, hv]
    · intro hr
      cases hi : Includes t k with
      | none => simp [Retrieve, hi] at hr
      | some w =>
        simp [Retrieve, hi] at hr
        rw [hr]
  · intro hnone
    cases hi : Includes t k with
    | none => simp [Retrieve, hi]
    | some w => exact absurd ((Includes_iff_mem_live h k w).mp hi) (hnone w)

theorem claim_C5_witness :
    isBST (Erase (Put (Put (nil : Tree Nat Nat) 2 5) 3 7) 3) = true ∧
      ((∀ v : Nat, (2, v) ∈ inorderLive (Erase (Put (Put (nil : Tree Nat Nat) 2 5) 3 7) 3) ↔
          Retrieve (Erase (Put (Put (nil : Tree Nat Nat) 2 5) 3 7) 3) 2 99 = (true, v)) ∧
        ((∀ v : Nat, (2, v) ∉ inorderLive (Erase (Put (Put (nil : Tree Nat Nat) 2 5) 3 7) 3)) →
          Retrieve (Erase (Put (Put (nil : Tree Nat Nat) 2 5) 3 7) 3) 2 99 = (false, 99))) :=
  ⟨by decide, claim_C5 (by decide) 2 99⟩

/-- C6: Put(k,v) — Get(k) followed by assignment through the returned
reference — produces exactly the same tree (structure, colors, liveness
bits, stored entries) as RInsert(root,k,v) followed by blackening the root;
the statement covers new keys, live keys and tombstoned keys alike. -/
theorem claim_C6 [Inhabited D] {t : Tree K D} (h : isBST t = true) (k : K) (v : D) :
    Put t k v = SetBlackRoot (RInsert t k v) :=
  Put_eq h k v

theorem claim_C6_witness :
    isBST (Erase (Put (Put (nil : Tree Nat Nat) 1 10) 2 20) 2) = true ∧
      Put (Erase (Put (Put (nil : Tree Nat Nat) 1 10) 2 20) 2) 3 30 =
        SetBlackRoot (RInsert (Erase (Put (Put (nil : Tree Nat Nat) 1 10) 2 20) 2) 3 30) ∧
      Put (Erase (Put (Put (nil : Tree Nat Nat) 1 10) 2 20) 2) 1 11 =
        SetBlackRoot (RInsert (Erase (Put (Put (nil : Tree Nat Nat) 1 10) 2 20) 2) 1 11) ∧
      Put (Erase (Put (Put (nil : Tree Nat Nat) 1 10) 2 20) 2) 2 22 =
        SetBlackRoot (RInsert (Erase (Put (Put (nil : Tree Nat Nat) 1 10) 2 20) 2) 2 22) :=
  ⟨by decide, claim_C6 (by decide) 3 30, claim_C6 (by decide) 1 11,
    claim_C6 (by decide) 2 22⟩

/-- C7 counterexample: the claim asserts that RotateLeft logs the
diagnostic whenever the right child is not red, a null child counting as
black; but on a node whose right child is the null pointer the source
returns before the color test, so nothing is logged (the node is still
returned unchanged). -/
theorem claim_C7_counterexample :
    (RotateLeftD (node nil 1 0 true false nil : Tree Nat Nat)).2 = [] ∧
      (RotateLeftD (node nil 1 0 true false nil : Tree Nat Nat)).1 =
        node nil 1 0 true false nil ∧
      ¬(RotateLeftD (node nil 1 0 true false nil : Tree Nat Nat)).2 = [RotateLeftMsg] ∧
      (RotateRightD (node nil 1 0 true false nil : Tree Nat Nat)).2 = [] ∧
      ¬(RotateRightD (node nil 1 0 true false nil : Tree Nat Nat)).2 = [RotateRightMsg] := by
  refine ⟨rfl, rfl, ?_, rfl, ?_⟩ <;> intro hcon <;> simp [RotateLeftD, RotateRightD] at hcon

/-- C7 as amended: when the right child exists and is black, RotateLeft
logs the diagnostic and returns the node unchanged; when the right child is
the null pointer it returns the node unchanged without logging; and
symmetrically for RotateRight on the left child. -/
theorem claim_C7 (l : Tree K D) (k : K) (d : D) (c dd : Bool)
    (rl : Tree K D) (rk : K) (rd : D) (rdd : Bool) (rr : Tree K D) :
    RotateLeftD (node l k d c dd (node rl rk rd false rdd rr)) =
      (node l k d c dd (node rl rk rd false rdd rr), [RotateLeftMsg]) ∧
    RotateLeftD (node l k d c dd nil) = (node l k d c dd nil, []) ∧
    RotateRightD (node (node rl rk rd false rdd rr) k d c dd l) =
      (node (node rl rk rd false rdd rr) k d c dd l, [RotateRightMsg]) ∧
    RotateRightD (node nil k d c dd l) = (node nil k d c dd l, []) := by
  refine ⟨?_, rfl, ?_, rfl⟩ <;> simp [RotateLeftD, RotateRightD]

/-- C8: operator== returns true exactly when the two live in-order
(key, value) sequences produced by the live-entry iterators are element-wise
identical and exhaust together; node structure and tombstones are invisible
to it, so maps built by differently-ordered insert sequences with the same
final live set compare equal. -/
theorem claim_C8 [DecidableEq D] (t1 t2 : Tree K D) :
    MapEq t1 t2 = true ↔ inorderLive t1 = inorderLive t2 := by
  rw [MapEq]
  exact EntriesEq_iff _ _

/-- C9: a non-empty map whose nodes are all tombstones rehashes to the
empty map: the live iterator yields nothing, so nothing is inserted, the old
tree is released, and the root becomes null. -/
theorem claim_C9 {t : Tree K D} (h0 : 0 < RNumNodes t) (h : RSize t = 0) :
    Rehash t = nil ∧ EmptyB (Rehash t) = true ∧ RNumNodes (Rehash t) = 0 := by
  have hl := inorderLive_nil_of_size h
  have hr : Rehash t = nil := by
    rw [Rehash, hl]
    rfl
  exact ⟨hr, by rw [hr]; rfl, by rw [hr]; rfl⟩

theorem claim_C9_witness :
    0 < RNumNodes (Erase (Put (nil : Tree Nat Nat) 1 10) 1) ∧
      RSize (Erase (Put (nil : Tree Nat Nat) 1 10) 1) = 0 ∧
      (Rehash (Erase (Put (nil : Tree Nat Nat) 1 10) 1) = nil ∧
        EmptyB (Rehash (Erase (Put (nil : Tree Nat Nat) 1 10) 1)) = true ∧
        RNumNodes (Rehash (Erase (Put (nil : Tree Nat Nat) 1 10) 1)) = 0) :=
  ⟨by decide, by decide, claim_C9 (by decide) (by decide)⟩

/-- C10: self-assignment m = m takes the guarded branch of operator=, so the
map is returned unchanged — no Clear, no RClone, no node freed or allocated —
and a deep copy itself reproduces the tree exactly (keys, data, color and
liveness bits, structure). -/
theorem claim_C10 (m : Tree K D) :
    AssignOp true m m = (m, false) ∧ RClone m = m :=
  ⟨rfl, RClone_id m⟩

end Tree

end fsu
